import Mathlib

/-!
Verification of the checkpointed work-partitioning engine of `ffapipe`
(`src_scripts/wkr_manager.py`, class `PipelineWorker`, fed with rank/size by
`multi_config.py`).  The engine is embedded shallowly:

* an `Item` is one directory entry as produced by the directory scan
  (entries exposing `.name` and `.path`);
* a `Rec` is one pickled record inside a hidden history log
  (`{date}.history_{rank}.log`): either the pickled pipeline configuration
  (`pickle.dump(self.config, ...)`, line 193) or the pickled per-file metadata
  (`pickle.dump(filterbank.metadata, ...)`, line 246), which carries the file
  name in its `fname` field (line 189 reads `meta["fname"]`);
* a `LogFile` is one such on-disk log (its rank index and its record sequence),
  and a `LogDir` is the set of logs the glob on line 173 can see for one date;
* the external per-item step (`Filterbank(...).process()`) is an opaque
  function `Item → Option Rec`: `some` is normal return together with the
  metadata record that gets pickled, `none` is a raised exception.
-/

namespace FFAPipe

/-- One file-level work item: a directory entry with a stable `name` and a
filesystem `path`, exactly the two attributes `PipelineWorker.__call__` reads
from the scanned entries (`FILE.name`, `FILE.path`). -/
structure Item where
  name : String
  path : String
  deriving DecidableEq, Repr

/-- One pickled record of a hidden history log: `isCfg = true` for the pickled
configuration object written at bootstrap (wkr_manager.py line 193), and
`isCfg = false` for a per-file metadata record whose `fname` field names the
processed file (lines 189 and 246). -/
structure Rec where
  isCfg : Bool
  fname : String
  deriving DecidableEq, Repr

/-- The record the bootstrap writes: the pickled `self.config` object.  It is
not a completion record and carries no file name. -/
def cfgRec : Rec := ⟨true, ""⟩

/-- One on-disk checkpoint log `{date}.history_{rnk}.log`: the rank index in
its name and its sequence of pickled records (in file order). -/
structure LogFile where
  rnk : ℕ
  recs : List Rec
  deriving DecidableEq, Repr

/-- The collection of history-log files the glob
`glob(f"{logs_path}/{date}.history_*.log")` (line 173) can see for one date.
The wildcard matches any rank index, so the `rnk` values are arbitrary
naturals, not bounded by the current peer count. -/
abbrev LogDir := List LogFile

/-! ## Partitioner (wkr_manager.py lines 199-212) -/

/-- The chunk size `n_files_per_rank` (lines 200-207): `len(FILES) / NRANKS`, rounded up to
the next integer when the division is not exact — the ceiling of
`total / nranks`. -/
def nPerRank (total nranks : ℕ) : ℕ :=
  if total % nranks = 0 then total / nranks else total / nranks + 1

/-- The slice of a list a given rank owns for a given per-rank chunk size
`pp` (lines 209-212): the last rank takes everything from its start offset
(`FILES[RANK * n_files_per_rank :]`), every other rank takes a chunk of
length `pp` (`FILES[RANK * n : (RANK + 1) * n]`).  Python slices clamp to the
list length, exactly as `List.drop`/`List.take` do. -/
def sliceAt (pp : ℕ) (L : List α) (RANK NRANKS : ℕ) : List α :=
  if RANK = NRANKS - 1 then L.drop (RANK * pp) else (L.drop (RANK * pp)).take pp

/-- The slice of `L` owned by `RANK` out of `NRANKS`, with the chunk size
computed from `L`'s length as in lines 200-207. -/
def ownedSlice (L : List α) (RANK NRANKS : ℕ) : List α :=
  sliceAt (nPerRank L.length NRANKS) L RANK NRANKS

/-! ## Detection (wkr_manager.py lines 55-90) -/

/-- Modelled from the spec: `filter_by_ext` lives in `src_scripts/utilities.py`,
which is not among the sources; per the spec's detection step it tests for
"the presence of files matching each expected pattern", i.e. it yields the
directory entries whose name carries the requested extension.  Modelled as a
suffix test on the entry name. -/
def matchesExt (f : Item) (extension : String) : Bool :=
  extension.data.isSuffixOf f.name.data

/-- Modelled from the spec: the directory listing filtered by extension
(`filter_by_ext(path, extension=...)`), as a list in directory order. -/
def filterByExt (dirFiles : List Item) (extension : String) : List Item :=
  dirFiles.filter (fun f => matchesExt f extension)

/-- Detection, `PipelineWorker.raw_or_fil` (lines 55-90): try to pull one entry from the
".raw" listing; on `StopIteration` try the ".fil" listing; on a second
`StopIteration` return `None`.  An iterator yields an element iff the
filtered listing is nonempty. -/
def raw_or_fil (dirFiles : List Item) : Option String :=
  match filterByExt dirFiles ".raw" with
  | _ :: _ => some ".raw"
  | [] =>
    match filterByExt dirFiles ".fil" with
    | _ :: _ => some ".fil"
    | [] => none

/-! ## Reconciliation (wkr_manager.py lines 173-197) -/

/-- Lines 173-175: glob all history logs of the date (any rank index); if
none exist, synthesize the names `{date}.history_{rnk}.log` for
`rnk = 0 .. NRANKS-1` (line 175), each reading as an empty record stream
(`unpickler` yields the pickled records of a log in file order, an empty
stream for a missing or empty file). -/
def reconcileFls (dir : LogDir) (NRANKS : ℕ) : LogDir :=
  if dir.isEmpty then (List.range NRANKS).map (fun rnk => ⟨rnk, []⟩) else dir

/-- The per-log pass of lines 177-194 over the globbed (or synthesized) log
list: `next(...)` consumes the first record of each log, and on
`StopIteration` — an empty record stream — the log is (re)created containing
just the pickled configuration (lines 191-194, mode `"wb+"`); otherwise the
`fname` fields of all remaining records — everything after the first — are
collected into `_proc_files_` (lines 184-189).  Returns the updated logs and
the collected names. -/
def reconcile (dir : LogDir) (NRANKS : ℕ) : LogDir × List String :=
  ((reconcileFls dir NRANKS).map
     (fun f => if f.recs.isEmpty then ⟨f.rnk, [cfgRec]⟩ else f),
   (reconcileFls dir NRANKS).flatMap (fun f => (f.recs.drop 1).map Rec.fname))

/-- The record sequence of the log named with rank `rk`
(`{date}.history_{rk}.log`), empty if no such log exists. -/
def recsOf (dir : LogDir) (rk : ℕ) : List Rec :=
  match dir with
  | [] => []
  | f :: fs => if f.rnk = rk then f.recs else recsOf fs rk

/-- One append, `open(metas_file, "ab")` followed by one `pickle.dump` (lines 226 and
246): append one record at the end of rank `RANK`'s log, creating the log if
it does not exist yet. -/
def appendOwn (dir : LogDir) (RANK : ℕ) (r : Rec) : LogDir :=
  match dir with
  | [] => [⟨RANK, [r]⟩]
  | f :: fs =>
    if f.rnk = RANK then ⟨f.rnk, f.recs ++ [r]⟩ :: fs
    else f :: appendOwn fs RANK r

/-! ## Processing loop (wkr_manager.py lines 224-256) -/

/-- Observable per-item actions of the processing loop, in program order. -/
inductive Event where
  | invoke (name : String)
  | record (r : Rec)
  | ledgerAppend (name : String)
  | emitCount (n : ℕ)
  | failed (name : String)
  deriving DecidableEq, Repr

/-- Filesystem-visible state one `PipelineWorker.__call__` invocation mutates:
the history logs of the date, the human-readable `filelist` ledger (one line
per processed file, line 247), and the trace of observable per-item actions. -/
structure WorkerState where
  dir : LogDir
  ledger : List String
  trace : List Event
  deriving DecidableEq, Repr

/-- The loop of lines 224-256.  For each owned file, in order: run the
external step (`filterbank.process()`, line 240); if it raises, the exception
propagates and the loop aborts; on return, pickle the returned metadata into
this rank's log (line 246), append the file name to `filelist` (line 247),
and log the number of lines now in `filelist` (lines 254-256).  Returns the
final state and whether the loop ran to completion. -/
def processLoop (step : Item → Option Rec) (RANK : ℕ) :
    List Item → WorkerState → WorkerState × Bool
  | [], s => (s, true)
  | F :: FS, s =>
    match step F with
    | none =>
      ({ s with trace := s.trace ++ [Event.invoke F.name, Event.failed F.name] },
       false)
    | some m =>
      processLoop step RANK FS
        { dir := appendOwn s.dir RANK m
          ledger := s.ledger ++ [F.name]
          trace := s.trace ++ [Event.invoke F.name, Event.record m,
                               Event.ledgerAppend F.name,
                               Event.emitCount (s.ledger.length + 1)] }

/-- The whole `PipelineWorker.__call__` (lines 120-263) for one date, over the given
directory listing, history logs, and pre-existing `filelist` content.  When
detection yields no source (`EXT` is `None`), the body of `if EXT:` is
skipped, but lines 260-261 still run and read the local `start_time`, which
is assigned only on line 160 inside the `if` — an `UnboundLocalError`.  When
the per-item step raises, the exception propagates out of `__call__` and
lines 260-263 are not reached either, but everything already written stays on
disk. -/
def runCall (step : Item → Option Rec) (RANK NRANKS : ℕ) (dirFiles : List Item)
    (dir : LogDir) (ledger : List String) : WorkerState × Except String Unit :=
  match raw_or_fil dirFiles with
  | none =>
    (⟨dir, ledger, []⟩,
     Except.error "UnboundLocalError: local variable start_time referenced before assignment")
  | some EXT =>
    let FILES0 := filterByExt dirFiles EXT
    let rc := reconcile dir NRANKS
    let FILES1 := FILES0.filter (fun F => !(rc.2.contains F.name))
    let OWNED := ownedSlice FILES1 RANK NRANKS
    let out := processLoop step RANK OWNED ⟨rc.1, ledger, []⟩
    (out.1,
     if out.2 then Except.ok ()
     else Except.error "ItemProcessingError: per-item step raised")

/-- The per-item action sequence prescribed by the spec's `PROCESSING` state
(spec §4.3): invoke the step, append the CompletionRecord, append the name to
the ledger, emit the running count — for each owned item in partition order,
starting from a ledger that already holds `base` lines.  Written from the
spec's words, to be compared with the trace the embedded loop produces. -/
def specItemTrace (ρ : Item → Rec) (base : ℕ) : List Item → List Event
  | [] => []
  | F :: FS =>
    Event.invoke F.name :: Event.record (ρ F) :: Event.ledgerAppend F.name ::
      Event.emitCount (base + 1) :: specItemTrace ρ (base + 1) FS

/-! ## Theorems -/

theorem sliceAt_shift (pp : ℕ) (L : List α) (r m : ℕ) (hm : 1 ≤ m) :
    sliceAt pp L (r + 1) (m + 1) = sliceAt pp (L.drop pp) r m := by
  have hd : L.drop ((r + 1) * pp) = (L.drop pp).drop (r * pp) := by
    rw [List.drop_drop]
    congr 1
    ring
  unfold sliceAt
  by_cases h : r = m - 1
  · rw [if_pos (show r + 1 = m + 1 - 1 by omega), if_pos h]
    exact hd
  · rw [if_neg (show ¬(r + 1 = m + 1 - 1) by omega), if_neg h, hd]

/-- Concatenating the slices of all ranks `0 .. n-1`, in rank order, gives
back the original list — for any chunk size `pp`. -/
theorem sliceAt_flatten (pp : ℕ) : ∀ n : ℕ, 1 ≤ n → ∀ L : List α,
    ((List.range n).map (fun r => sliceAt pp L r n)).flatten = L := by
  intro n
  induction n with
  | zero => intro h; exact absurd h (by omega)
  | succ m ih =>
    intro _ L
    rcases Nat.eq_zero_or_pos m with h0 | hm
    · subst h0
      rw [List.range_succ_eq_map]
      simp [sliceAt]
    · rw [List.range_succ_eq_map]
      simp only [List.map_cons, List.map_map, List.flatten_cons]
      have h1 : sliceAt pp L 0 (m + 1) = L.take pp := by
        unfold sliceAt
        rw [if_neg (by omega)]
        simp
      have h2 : (List.range m).map ((fun r => sliceAt pp L r (m + 1)) ∘ Nat.succ)
          = (List.range m).map (fun r => sliceAt pp (L.drop pp) r m) := by
        refine List.map_congr_left (fun r _ => ?_)
        show sliceAt pp L (r + 1) (m + 1) = sliceAt pp (L.drop pp) r m
        exact sliceAt_shift pp L r m hm
      rw [h1, h2, ih hm (L.drop pp), List.take_append_drop]

/-- Claim C1 (partition coverage): for every item list and every peer count
`n ≥ 1`, the slices computed by lines 199-212 of wkr_manager.py
(`per_peer = ceil(total / n)`; rank `i < n-1` gets
`[i*per_peer, (i+1)*per_peer)`, the last rank gets `[i*per_peer, total)`)
concatenate, in rank order, to exactly the original list — no item dropped,
none duplicated — and on the index list `[0, total)` the slices of distinct
ranks are pairwise disjoint.  This covers `total = 0` and `n > total`
(Python slices clamp, as `drop`/`take` do). -/
theorem partition_coverage (L : List ℕ) (total n : ℕ) (hn : 1 ≤ n) :
    ((List.range n).map (fun r => ownedSlice L r n)).flatten = L ∧
    List.Pairwise List.Disjoint
      ((List.range n).map (fun r => ownedSlice (List.range total) r n)) := by
  constructor
  · exact sliceAt_flatten (nPerRank L.length n) n hn L
  · have h2 : ((List.range n).map (fun r =>
        ownedSlice (List.range total) r n)).flatten.Nodup := by
      rw [show ((List.range n).map (fun r => ownedSlice (List.range total) r n)).flatten
            = List.range total from
          sliceAt_flatten (nPerRank (List.range total).length n) n hn (List.range total)]
      exact List.nodup_range total
    exact (List.nodup_flatten.mp h2).2

/-- Witness for C1, Scenario A of the spec: 10 items, 3 peers — slices
`[0,4)`, `[4,8)`, `[8,10)`. -/
theorem partition_coverage_witness :
    ((List.range 3).map (fun r =>
        ownedSlice ([20, 21, 22, 23, 24, 25, 26, 27, 28, 29] : List ℕ) r 3)).flatten
      = [20, 21, 22, 23, 24, 25, 26, 27, 28, 29] ∧
    List.Pairwise List.Disjoint
      ((List.range 3).map (fun r => ownedSlice (List.range 10) r 3)) :=
  partition_coverage [20, 21, 22, 23, 24, 25, 26, 27, 28, 29] 10 3 (by decide)

theorem filterByExt_eq_nil_iff (dirFiles : List Item) (e : String) :
    filterByExt dirFiles e = [] ↔ ∀ f ∈ dirFiles, matchesExt f e = false := by
  simp [filterByExt, List.filter_eq_nil_iff]

theorem raw_or_fil_raw (dirFiles : List Item)
    (h : filterByExt dirFiles ".raw" ≠ []) : raw_or_fil dirFiles = some ".raw" := by
  unfold raw_or_fil
  rcases hfe : filterByExt dirFiles ".raw" with _ | ⟨a, as⟩
  · exact absurd hfe h
  · rfl

theorem raw_or_fil_fil (dirFiles : List Item)
    (h1 : filterByExt dirFiles ".raw" = [])
    (h2 : filterByExt dirFiles ".fil" ≠ []) : raw_or_fil dirFiles = some ".fil" := by
  unfold raw_or_fil
  rw [h1]
  rcases hfe : filterByExt dirFiles ".fil" with _ | ⟨a, as⟩
  · exact absurd hfe h2
  · rfl

theorem raw_or_fil_none (dirFiles : List Item)
    (h1 : ∀ f ∈ dirFiles, matchesExt f ".raw" = false)
    (h2 : ∀ f ∈ dirFiles, matchesExt f ".fil" = false) :
    raw_or_fil dirFiles = none := by
  unfold raw_or_fil
  rw [(filterByExt_eq_nil_iff dirFiles ".raw").mpr h1,
      (filterByExt_eq_nil_iff dirFiles ".fil").mpr h2]

/-- Claim C9 (detection precedence): `raw_or_fil` (lines 55-90) returns the
raw extension if any `.raw` entry exists — whether or not `.fil` entries are
also present, since the raw listing is probed first — else the prepared
extension if any `.fil` entry exists, else `None`. -/
theorem detection_precedence (dirFiles : List Item) :
    ((∃ f ∈ dirFiles, matchesExt f ".raw" = true) →
        raw_or_fil dirFiles = some ".raw") ∧
    ((∀ f ∈ dirFiles, matchesExt f ".raw" = false) →
      (∃ f ∈ dirFiles, matchesExt f ".fil" = true) →
        raw_or_fil dirFiles = some ".fil") ∧
    ((∀ f ∈ dirFiles, matchesExt f ".raw" = false ∧ matchesExt f ".fil" = false) →
        raw_or_fil dirFiles = none) := by
  refine ⟨?_, ?_, ?_⟩
  · rintro ⟨f, hf, hm⟩
    refine raw_or_fil_raw dirFiles (fun h => ?_)
    rw [(filterByExt_eq_nil_iff dirFiles ".raw").mp h f hf] at hm
    exact Bool.false_ne_true hm
  · rintro h1 ⟨f, hf, hm⟩
    refine raw_or_fil_fil dirFiles ((filterByExt_eq_nil_iff dirFiles ".raw").mpr h1)
      (fun h => ?_)
    rw [(filterByExt_eq_nil_iff dirFiles ".fil").mp h f hf] at hm
    exact Bool.false_ne_true hm
  · intro h
    exact raw_or_fil_none dirFiles (fun f hf => (h f hf).1) (fun f hf => (h f hf).2)

/-- Witness for C9: a directory holding both a raw and a prepared file is
detected as raw. -/
theorem detection_precedence_witness :
    raw_or_fil [⟨"scan01.raw", "/d/scan01.raw"⟩, ⟨"scan01.fil", "/d/scan01.fil"⟩]
      = some ".raw" :=
  (detection_precedence
      [⟨"scan01.raw", "/d/scan01.raw"⟩, ⟨"scan01.fil", "/d/scan01.fil"⟩]).1
    (by decide)

/-- Claim C3 (unset start time on empty detection): contrary to the claim,
when detection yields no source the code still runs lines 260-263, which read
the local `start_time` assigned only on line 160 inside `if EXT:` — an
`UnboundLocalError`.  Evaluated here at a concrete date directory holding
neither `.raw` nor `.fil` files: `__call__` terminates with the error, having
touched no logs. -/
theorem none_source_unset_start_time :
    runCall (fun F => some ⟨false, F.name⟩) 0 1
        [⟨"README.txt", "/data/2020_01_01/README.txt"⟩]
        [⟨0, [cfgRec]⟩] []
      = (⟨[⟨0, [cfgRec]⟩], [], []⟩,
         Except.error "UnboundLocalError: local variable start_time referenced before assignment") := by
  rfl

/-- Claim C7 (empty-log bootstrap): during reconciliation an existing log
with zero records contributes no names to the completed set; when no log
exists at all, the expected log names for the current peer count are
synthesized (line 175) and each initialized to hold only the pickled
configuration (lines 191-194), so a first run reconciles to an empty
completed set. -/
theorem empty_log_bootstrap (N : ℕ) :
    (reconcile ([] : LogDir) N).2 = [] ∧
    (reconcile ([] : LogDir) N).1 = (List.range N).map (fun rnk => ⟨rnk, [cfgRec]⟩) ∧
    ∀ dir : LogDir, (∀ f ∈ dir, f.recs = []) → (reconcile dir N).2 = [] := by
  refine ⟨?_, ?_, ?_⟩
  · simp [reconcile, reconcileFls]
  · simp [reconcile, reconcileFls]
  · intro dir h
    have h2 : ∀ f ∈ reconcileFls dir N, f.recs = [] := by
      intro f hf
      unfold reconcileFls at hf
      split at hf
      · rcases List.mem_map.mp hf with ⟨rnk, _, rfl⟩
        rfl
      · exact h f hf
    show (reconcileFls dir N).flatMap (fun f => (f.recs.drop 1).map Rec.fname) = []
    rw [List.flatMap_eq_nil_iff]
    intro f hf
    rw [h2 f hf]
    rfl

/-- Witness for C7: one existing zero-record log (under a historical rank
index) yields an empty completed set for the current peer count 4. -/
theorem empty_log_bootstrap_witness :
    (reconcile [(⟨5, []⟩ : LogFile)] 4).2 = [] :=
  (empty_log_bootstrap 4).2.2 [(⟨5, []⟩ : LogFile)] (by decide)

theorem mem_reconcile_completed (dir : LogDir) (M : ℕ) (f : LogFile) (r : Rec)
    (hf : f ∈ dir) (hr : r ∈ f.recs.drop 1) : r.fname ∈ (reconcile dir M).2 := by
  have hne : dir.isEmpty = false := by
    cases dir with
    | nil => exact absurd hf (List.not_mem_nil f)
    | cons g gs => rfl
  show r.fname ∈ (reconcileFls dir M).flatMap (fun f => (f.recs.drop 1).map Rec.fname)
  unfold reconcileFls
  rw [hne]
  simp only [Bool.false_eq_true, if_false]
  exact List.mem_flatMap.mpr ⟨f, hf, List.mem_map.mpr ⟨r, hr, rfl⟩⟩

/-- Claim C2 (peer-count-change tolerance): the glob on line 173 matches
`{date}.history_*.log` for any historical rank index, so reconciliation reads
every historical log regardless of which peer wrote it (the `rnk` keys of
`dir` are unconstrained and may come from a run with a different peer count).
For logs in the engine's own format (first record the pickled configuration):
every item named by a completion record of any historical log lands in the
completed set; the item list filtered by that set (line 197) contains no such
item; and the filtered remainder is partitioned across the current `M` peers
covering it exactly once. -/
theorem peer_change_tolerance (dir : LogDir) (FILES : List Item) (M : ℕ)
    (hM : 1 ≤ M) (hhdr : ∀ f ∈ dir, f.recs.head? = some cfgRec) :
    (∀ f ∈ dir, ∀ r ∈ f.recs, r.isCfg = false → r.fname ∈ (reconcile dir M).2) ∧
    (∀ F ∈ FILES.filter (fun F => !((reconcile dir M).2.contains F.name)),
        ∀ f ∈ dir, ∀ r ∈ f.recs, r.isCfg = false → F.name ≠ r.fname) ∧
    ((List.range M).map (fun rk =>
        ownedSlice (FILES.filter (fun F => !((reconcile dir M).2.contains F.name))) rk M)).flatten
      = FILES.filter (fun F => !((reconcile dir M).2.contains F.name)) := by
  have key : ∀ f ∈ dir, ∀ r ∈ f.recs, r.isCfg = false →
      r.fname ∈ (reconcile dir M).2 := by
    intro f hf r hr hcfg
    rcases hrecs : f.recs with _ | ⟨c, t⟩
    · rw [hrecs] at hr
      exact absurd hr (List.not_mem_nil r)
    · have hc : c = cfgRec := by
        have := hhdr f hf
        rw [hrecs] at this
        exact Option.some.inj this
      rw [hrecs] at hr
      rcases List.mem_cons.mp hr with hrc | hrt
      · rw [hrc, hc] at hcfg
        exact absurd hcfg (by simp [cfgRec])
      · refine mem_reconcile_completed dir M f r hf ?_
        rw [hrecs]
        exact hrt
  refine ⟨key, ?_, ?_⟩
  · intro F hF f hf r hr hcfg heq
    have hmem := List.mem_filter.mp hF
    have hnotin : F.name ∉ (reconcile dir M).2 := by
      intro hin
      have hc : (reconcile dir M).2.contains F.name = true := List.elem_iff.mpr hin
      have hb := hmem.2
      rw [hc] at hb
      simp at hb
    exact hnotin (heq ▸ key f hf r hr hcfg)
  · exact sliceAt_flatten _ M hM _

/-- Witness for C2: two historical logs written under peer indices 0 and 7
(a peer count larger than the current `M = 3`); both recorded items are
excluded from the remainder, which the three current peers cover exactly. -/
theorem peer_change_tolerance_witness :
    ((List.range 3).map (fun rk =>
        ownedSlice (([⟨"a.fil", "/d/a.fil"⟩, ⟨"b.fil", "/d/b.fil"⟩,
            ⟨"c.fil", "/d/c.fil"⟩] : List Item).filter (fun F =>
          !((reconcile ([⟨0, [cfgRec, ⟨false, "a.fil"⟩]⟩,
              ⟨7, [cfgRec, ⟨false, "b.fil"⟩]⟩] : LogDir) 3).2.contains F.name))) rk 3)).flatten
      = ([⟨"a.fil", "/d/a.fil"⟩, ⟨"b.fil", "/d/b.fil"⟩,
          ⟨"c.fil", "/d/c.fil"⟩] : List Item).filter (fun F =>
        !((reconcile ([⟨0, [cfgRec, ⟨false, "a.fil"⟩]⟩,
            ⟨7, [cfgRec, ⟨false, "b.fil"⟩]⟩] : LogDir) 3).2.contains F.name)) :=
  (peer_change_tolerance
      [⟨0, [cfgRec, ⟨false, "a.fil"⟩]⟩, ⟨7, [cfgRec, ⟨false, "b.fil"⟩]⟩]
      [⟨"a.fil", "/d/a.fil"⟩, ⟨"b.fil", "/d/b.fil"⟩, ⟨"c.fil", "/d/c.fil"⟩]
      3 (by decide) (by decide)).2.2

theorem runCall_none (step : Item → Option Rec) (RANK NRANKS : ℕ)
    (dirFiles : List Item) (dir : LogDir) (ledger : List String)
    (h : raw_or_fil dirFiles = none) :
    runCall step RANK NRANKS dirFiles dir ledger =
      (⟨dir, ledger, []⟩,
       Except.error "UnboundLocalError: local variable start_time referenced before assignment") := by
  unfold runCall
  rw [h]

theorem runCall_some (step : Item → Option Rec) (RANK NRANKS : ℕ)
    (dirFiles : List Item) (dir : LogDir) (ledger : List String) (EXT : String)
    (h : raw_or_fil dirFiles = some EXT) :
    runCall step RANK NRANKS dirFiles dir ledger =
      ((processLoop step RANK
          (ownedSlice ((filterByExt dirFiles EXT).filter
              (fun F => !((reconcile dir NRANKS).2.contains F.name))) RANK NRANKS)
          ⟨(reconcile dir NRANKS).1, ledger, []⟩).1,
       if (processLoop step RANK
          (ownedSlice ((filterByExt dirFiles EXT).filter
              (fun F => !((reconcile dir NRANKS).2.contains F.name))) RANK NRANKS)
          ⟨(reconcile dir NRANKS).1, ledger, []⟩).2
       then Except.ok ()
       else Except.error "ItemProcessingError: per-item step raised") := by
  unfold runCall
  rw [h]

theorem appendOwn_extends (d : LogDir) (RANK : ℕ) (rc : Rec) :
    ∀ f ∈ d, ∃ f' ∈ appendOwn d RANK rc, f'.rnk = f.rnk ∧
      ∃ t, f'.recs = f.recs ++ t := by
  induction d with
  | nil => intro f hf; exact absurd hf (List.not_mem_nil f)
  | cons g gs ih =>
    intro f hf
    simp only [appendOwn]
    by_cases hg : g.rnk = RANK
    · rw [if_pos hg]
      rcases List.mem_cons.mp hf with rfl | hfs
      · exact ⟨⟨f.rnk, f.recs ++ [rc]⟩, List.mem_cons_self _ _, rfl, [rc], rfl⟩
      · exact ⟨f, List.mem_cons_of_mem _ hfs, rfl, [], (List.append_nil _).symm⟩
    · rw [if_neg hg]
      rcases List.mem_cons.mp hf with rfl | hfs
      · exact ⟨f, List.mem_cons_self _ _, rfl, [], (List.append_nil _).symm⟩
      · obtain ⟨f', hf', h1, t, h2⟩ := ih f hfs
        exact ⟨f', List.mem_cons_of_mem _ hf', h1, t, h2⟩

theorem reconcile_extends (dir : LogDir) (N : ℕ) :
    ∀ f ∈ dir, ∃ f' ∈ (reconcile dir N).1, f'.rnk = f.rnk ∧
      ∃ t, f'.recs = f.recs ++ t := by
  intro f hf
  have hne : dir.isEmpty = false := by
    cases dir with
    | nil => exact absurd hf (List.not_mem_nil f)
    | cons g gs => rfl
  have hfls : reconcileFls dir N = dir := by
    unfold reconcileFls
    rw [hne]
    simp
  by_cases he : f.recs.isEmpty
  · refine ⟨⟨f.rnk, [cfgRec]⟩, ?_, rfl, [cfgRec], ?_⟩
    · show (⟨f.rnk, [cfgRec]⟩ : LogFile) ∈ (reconcileFls dir N).map
        (fun f => if f.recs.isEmpty then (⟨f.rnk, [cfgRec]⟩ : LogFile) else f)
      rw [hfls]
      refine List.mem_map.mpr ⟨f, hf, ?_⟩
      rw [if_pos he]
    · rw [List.isEmpty_iff.mp he]
      rfl
  · refine ⟨f, ?_, rfl, [], (List.append_nil _).symm⟩
    show f ∈ (reconcileFls dir N).map
      (fun f => if f.recs.isEmpty then (⟨f.rnk, [cfgRec]⟩ : LogFile) else f)
    rw [hfls]
    exact List.mem_map.mpr ⟨f, hf, by rw [if_neg he]⟩

theorem processLoop_extends (step : Item → Option Rec) (RANK : ℕ) :
    ∀ (FS : List Item) (s : WorkerState), ∀ f ∈ s.dir,
      ∃ f' ∈ (processLoop step RANK FS s).1.dir, f'.rnk = f.rnk ∧
        ∃ t, f'.recs = f.recs ++ t := by
  intro FS
  induction FS with
  | nil => intro s f hf; exact ⟨f, hf, rfl, [], (List.append_nil _).symm⟩
  | cons F FS ih =>
    intro s f hf
    rcases hstep : step F with _ | m
    · simp only [processLoop, hstep]
      exact ⟨f, hf, rfl, [], (List.append_nil _).symm⟩
    · simp only [processLoop, hstep]
      obtain ⟨f₁, hf₁, h1, t₁, ht₁⟩ := appendOwn_extends s.dir RANK m f hf
      obtain ⟨f₂, hf₂, h2, t₂, ht₂⟩ := ih
        { dir := appendOwn s.dir RANK m,
          ledger := s.ledger ++ [F.name],
          trace := s.trace ++ [Event.invoke F.name, Event.record m,
                               Event.ledgerAppend F.name,
                               Event.emitCount (s.ledger.length + 1)] } f₁ hf₁
      exact ⟨f₂, hf₂, by rw [h2, h1], t₁ ++ t₂, by rw [ht₂, ht₁, List.append_assoc]⟩

/-- Claim C5 (append-only checkpoint logs): across one whole `__call__` run —
reconciliation (which rewrites a log with mode `"wb+"` only when it holds
zero records, and appends the configuration there) and the processing loop
(which only ever opens the rank's log with mode `"ab"`) — every checkpoint
log present initially reappears with its original record sequence as an
unchanged initial segment: records are only added at the end, never
truncated or overwritten. -/
theorem append_only_logs (step : Item → Option Rec) (RANK NRANKS : ℕ)
    (dirFiles : List Item) (dir : LogDir) (ledger : List String) :
    ∀ f ∈ dir, ∃ f' ∈ (runCall step RANK NRANKS dirFiles dir ledger).1.dir,
      f'.rnk = f.rnk ∧ ∃ t, f'.recs = f.recs ++ t := by
  intro f hf
  rcases hfe : raw_or_fil dirFiles with _ | EXT
  · rw [runCall_none step RANK NRANKS dirFiles dir ledger hfe]
    exact ⟨f, hf, rfl, [], (List.append_nil _).symm⟩
  · rw [runCall_some step RANK NRANKS dirFiles dir ledger EXT hfe]
    obtain ⟨f₁, hf₁, h1, t₁, ht₁⟩ := reconcile_extends dir NRANKS f hf
    obtain ⟨f₂, hf₂, h2, t₂, ht₂⟩ := processLoop_extends step RANK
      (ownedSlice ((filterByExt dirFiles EXT).filter
          (fun F => !((reconcile dir NRANKS).2.contains F.name))) RANK NRANKS)
      ⟨(reconcile dir NRANKS).1, ledger, []⟩ f₁ hf₁
    exact ⟨f₂, hf₂, by rw [h2, h1], t₁ ++ t₂, by rw [ht₂, ht₁, List.append_assoc]⟩

/-- Witness for C5: after a run that processes one file, the pre-existing
rank-0 log reappears with its old content as a prefix. -/
theorem append_only_logs_witness :
    ∃ f' ∈ (runCall (fun F => some ⟨false, F.name⟩) 0 1
        [⟨"a.fil", "/d/a.fil"⟩] [⟨0, [cfgRec]⟩] []).1.dir,
      f'.rnk = (⟨0, [cfgRec]⟩ : LogFile).rnk ∧
      ∃ t, f'.recs = (⟨0, [cfgRec]⟩ : LogFile).recs ++ t :=
  append_only_logs (fun F => some ⟨false, F.name⟩) 0 1
    [⟨"a.fil", "/d/a.fil"⟩] [⟨0, [cfgRec]⟩] [] ⟨0, [cfgRec]⟩ (by decide)

theorem appendOwn_mem_ne (d : LogDir) (RANK : ℕ) (rc : Rec) :
    ∀ f' ∈ appendOwn d RANK rc, f'.rnk ≠ RANK → f' ∈ d := by
  induction d with
  | nil =>
    intro f' hf' hne
    simp only [appendOwn] at hf'
    rcases List.mem_cons.mp hf' with rfl | h
    · exact absurd rfl hne
    · exact absurd h (List.not_mem_nil f')
  | cons g gs ih =>
    intro f' hf' hne
    simp only [appendOwn] at hf'
    by_cases hg : g.rnk = RANK
    · rw [if_pos hg] at hf'
      rcases List.mem_cons.mp hf' with rfl | h
      · exact absurd hg hne
      · exact List.mem_cons_of_mem g h
    · rw [if_neg hg] at hf'
      rcases List.mem_cons.mp hf' with rfl | h
      · exact List.mem_cons_self _ _
      · exact List.mem_cons_of_mem g (ih f' h hne)

theorem processLoop_mem_ne (step : Item → Option Rec) (RANK : ℕ) :
    ∀ (FS : List Item) (s : WorkerState), ∀ f' ∈ (processLoop step RANK FS s).1.dir,
      f'.rnk ≠ RANK → f' ∈ s.dir := by
  intro FS
  induction FS with
  | nil => intro s f' hf' _; exact hf'
  | cons F FS ih =>
    intro s f' hf' hne
    rcases hstep : step F with _ | m
    · simp only [processLoop, hstep] at hf'
      exact hf'
    · simp only [processLoop, hstep] at hf'
      exact appendOwn_mem_ne s.dir RANK m f'
        (ih { dir := appendOwn s.dir RANK m,
              ledger := s.ledger ++ [F.name],
              trace := s.trace ++ [Event.invoke F.name, Event.record m,
                                   Event.ledgerAppend F.name,
                                   Event.emitCount (s.ledger.length + 1)] } f' hf' hne)
        hne

theorem reconcile_mem_cases (dir : LogDir) (N : ℕ) :
    ∀ f' ∈ (reconcile dir N).1, ∀ r ∈ f'.recs,
      r = cfgRec ∨ ∃ f ∈ dir, f.rnk = f'.rnk ∧ r ∈ f.recs := by
  intro f' hf' r hr
  have hf'' : f' ∈ (reconcileFls dir N).map
      (fun f => if f.recs.isEmpty then (⟨f.rnk, [cfgRec]⟩ : LogFile) else f) := hf'
  obtain ⟨f, hf, hmap⟩ := List.mem_map.mp hf''
  rcases dir with _ | ⟨g, gs⟩
  · have hsyn : f ∈ (List.range N).map (fun rnk => (⟨rnk, []⟩ : LogFile)) := hf
    obtain ⟨rnk, _, hfeq⟩ := List.mem_map.mp hsyn
    rw [← hfeq] at hmap
    rw [← hmap] at hr
    simp at hr
    exact Or.inl hr
  · have hfd : f ∈ g :: gs := hf
    by_cases he : f.recs.isEmpty
    · rw [if_pos he] at hmap
      rw [← hmap] at hr
      simp at hr
      exact Or.inl hr
    · rw [if_neg he] at hmap
      rw [← hmap] at hr ⊢
      exact Or.inr ⟨f, hfd, rfl, hr⟩

/-- Counterexample to claim C4 as stated: the claim says no operation of the
engine writes to a checkpoint log named with a different peer's rank index,
but during first-run bootstrap (lines 174-194) peer 0 of 2 iterates over the
synthesized log names of *all* ranks and writes the pickled configuration
into each, so after peer 0's run the rank-1 log — which did not exist
beforehand — holds the configuration record. -/
theorem write_discipline_cex :
    recsOf (runCall (fun F => some ⟨false, F.name⟩) 0 2
        [⟨"a.fil", "/d/a.fil"⟩] [] []).1.dir 1 = [cfgRec] ∧
    recsOf ([] : LogDir) 1 = [] := by
  constructor
  · rfl
  · rfl

/-- Claim C4 as amended: each peer appends *completion records* only to its
own rank-scoped checkpoint log; another peer's log can only be touched by
the bootstrap initialization, which writes the configuration header — after
a run of rank `RANK`, every record in a log named with a different rank is
either the configuration record or was already present in that rank's log
before the run. -/
theorem write_discipline_amended (step : Item → Option Rec) (RANK NRANKS : ℕ)
    (dirFiles : List Item) (dir : LogDir) (ledger : List String) :
    ∀ f' ∈ (runCall step RANK NRANKS dirFiles dir ledger).1.dir, f'.rnk ≠ RANK →
      ∀ r ∈ f'.recs, r = cfgRec ∨ ∃ f ∈ dir, f.rnk = f'.rnk ∧ r ∈ f.recs := by
  intro f' hf' hne r hr
  rcases hfe : raw_or_fil dirFiles with _ | EXT
  · rw [runCall_none step RANK NRANKS dirFiles dir ledger hfe] at hf'
    exact Or.inr ⟨f', hf', rfl, hr⟩
  · rw [runCall_some step RANK NRANKS dirFiles dir ledger EXT hfe] at hf'
    have hrc : f' ∈ (reconcile dir NRANKS).1 :=
      processLoop_mem_ne step RANK
        (ownedSlice ((filterByExt dirFiles EXT).filter
            (fun F => !((reconcile dir NRANKS).2.contains F.name))) RANK NRANKS)
        ⟨(reconcile dir NRANKS).1, ledger, []⟩ f' hf' hne
    exact reconcile_mem_cases dir NRANKS f' hrc r hr

/-- Witness for the amended C4: in the bootstrap counterexample run, the
single record of the rank-1 log is indeed the configuration record. -/
theorem write_discipline_amended_witness :
    (⟨true, ""⟩ : Rec) = cfgRec ∨
      ∃ f ∈ ([] : LogDir), f.rnk = (⟨1, [cfgRec]⟩ : LogFile).rnk ∧
        (⟨true, ""⟩ : Rec) ∈ f.recs :=
  write_discipline_amended (fun F => some ⟨false, F.name⟩) 0 2
    [⟨"a.fil", "/d/a.fil"⟩] [] [] ⟨1, [cfgRec]⟩ (by decide) (by decide)
    ⟨true, ""⟩ (by decide)

theorem processLoop_ok (step : Item → Option Rec) (RANK : ℕ) (ρ : Item → Rec) :
    ∀ (FS : List Item) (s : WorkerState), (∀ F ∈ FS, step F = some (ρ F)) →
    processLoop step RANK FS s =
      ({ dir := FS.foldl (fun d F => appendOwn d RANK (ρ F)) s.dir,
         ledger := s.ledger ++ FS.map Item.name,
         trace := s.trace ++ specItemTrace ρ s.ledger.length FS }, true) := by
  intro FS
  induction FS with
  | nil => intro s _; simp [processLoop, specItemTrace]
  | cons F FS ih =>
    intro s hall
    have hF : step F = some (ρ F) := hall F (List.mem_cons_self F FS)
    simp only [processLoop, hF]
    rw [ih _ (fun G hG => hall G (List.mem_cons_of_mem F hG))]
    simp [specItemTrace, List.append_assoc]

theorem processLoop_fail (step : Item → Option Rec) (RANK : ℕ) (ρ : Item → Rec) :
    ∀ (done : List Item) (bad : Item) (rest : List Item) (s : WorkerState),
    (∀ F ∈ done, step F = some (ρ F)) → step bad = none →
    processLoop step RANK (done ++ bad :: rest) s =
      ({ dir := done.foldl (fun d F => appendOwn d RANK (ρ F)) s.dir,
         ledger := s.ledger ++ done.map Item.name,
         trace := s.trace ++ specItemTrace ρ s.ledger.length done ++
                  [Event.invoke bad.name, Event.failed bad.name] }, false) := by
  intro done
  induction done with
  | nil =>
    intro bad rest s _ hbad
    simp only [List.nil_append, processLoop, hbad]
    simp [specItemTrace]
  | cons F FS ih =>
    intro bad rest s hall hbad
    have hF : step F = some (ρ F) := hall F (List.mem_cons_self F FS)
    show processLoop step RANK (F :: (FS ++ bad :: rest)) s = _
    simp only [processLoop, hF]
    rw [ih bad rest _ (fun G hG => hall G (List.mem_cons_of_mem F hG)) hbad]
    simp [specItemTrace, List.append_assoc]

theorem recsOf_appendOwn_self (d : LogDir) (RANK : ℕ) (rc : Rec) :
    recsOf (appendOwn d RANK rc) RANK = recsOf d RANK ++ [rc] := by
  induction d with
  | nil => simp [appendOwn, recsOf]
  | cons g gs ih =>
    by_cases hg : g.rnk = RANK
    · simp [appendOwn, recsOf, hg]
    · simp [appendOwn, recsOf, hg, ih]

theorem recsOf_appendOwn_ne (d : LogDir) (RANK rk : ℕ) (rc : Rec) (h : rk ≠ RANK) :
    recsOf (appendOwn d RANK rc) rk = recsOf d rk := by
  induction d with
  | nil => simp [appendOwn, recsOf, Ne.symm h]
  | cons g gs ih =>
    by_cases hg : g.rnk = RANK
    · simp [appendOwn, recsOf, hg, Ne.symm h]
    · by_cases hgr : g.rnk = rk
      · simp [appendOwn, recsOf, hg, hgr, h]
      · simp [appendOwn, recsOf, hg, hgr, ih]

theorem recsOf_foldl_self (RANK : ℕ) (ρ : Item → Rec) :
    ∀ (FS : List Item) (d : LogDir),
      recsOf (FS.foldl (fun d F => appendOwn d RANK (ρ F)) d) RANK
        = recsOf d RANK ++ FS.map ρ := by
  intro FS
  induction FS with
  | nil => intro d; simp
  | cons F FS ih =>
    intro d
    simp only [List.foldl_cons, List.map_cons]
    rw [ih (appendOwn d RANK (ρ F)), recsOf_appendOwn_self]
    simp

theorem recsOf_foldl_ne (RANK rk : ℕ) (ρ : Item → Rec) (h : rk ≠ RANK) :
    ∀ (FS : List Item) (d : LogDir),
      recsOf (FS.foldl (fun d F => appendOwn d RANK (ρ F)) d) rk = recsOf d rk := by
  intro FS
  induction FS with
  | nil => intro d; rfl
  | cons F FS ih =>
    intro d
    simp only [List.foldl_cons]
    rw [ih, recsOf_appendOwn_ne _ _ _ _ h]

theorem recsOf_mem (rk : ℕ) : ∀ d : LogDir, recsOf d rk ≠ [] →
    ∃ f ∈ d, f.rnk = rk ∧ f.recs = recsOf d rk := by
  intro d
  induction d with
  | nil => intro h; exact absurd rfl h
  | cons g gs ih =>
    intro h
    by_cases hg : g.rnk = rk
    · refine ⟨g, List.mem_cons_self _ _, hg, ?_⟩
      simp [recsOf, hg]
    · rw [show recsOf (g :: gs) rk = recsOf gs rk from by simp [recsOf, hg]] at h ⊢
      obtain ⟨f, hf, h1, h2⟩ := ih h
      exact ⟨f, List.mem_cons_of_mem g hf, h1, h2⟩

/-- Claim C8 (per-item processing order): when the external step succeeds on
every owned item, the loop of lines 224-256 runs to completion strictly
sequentially, and its observable trace equals, item by item in partition
order, the spec-prescribed sequence: invoke the step, append the returned
metadata record to the rank's checkpoint log, append the item name to the
`filelist` ledger, then emit the number of items processed so far (the line
count of `filelist`); the ledger ends up extended by exactly the owned item
names in order. -/
theorem per_item_order (step : Item → Option Rec) (RANK : ℕ) (ρ : Item → Rec)
    (FS : List Item) (s : WorkerState) (hall : ∀ F ∈ FS, step F = some (ρ F)) :
    (processLoop step RANK FS s).2 = true ∧
    (processLoop step RANK FS s).1.trace
      = s.trace ++ specItemTrace ρ s.ledger.length FS ∧
    (processLoop step RANK FS s).1.ledger = s.ledger ++ FS.map Item.name := by
  rw [processLoop_ok step RANK ρ FS s hall]
  exact ⟨rfl, rfl, rfl⟩

/-- Witness for C8: two items over a ledger that already holds one line —
the emitted counts are 2 then 3, and each item's four actions appear in
order. -/
theorem per_item_order_witness :
    (processLoop (fun F => some ⟨false, F.name⟩) 0
        [⟨"a.fil", "/d/a.fil"⟩, ⟨"b.fil", "/d/b.fil"⟩]
        ⟨[⟨0, [cfgRec]⟩], ["old.fil"], []⟩).2 = true ∧
    (processLoop (fun F => some ⟨false, F.name⟩) 0
        [⟨"a.fil", "/d/a.fil"⟩, ⟨"b.fil", "/d/b.fil"⟩]
        ⟨[⟨0, [cfgRec]⟩], ["old.fil"], []⟩).1.trace
      = ([] : List Event) ++ specItemTrace (fun F => ⟨false, F.name⟩)
          (["old.fil"] : List String).length
          [⟨"a.fil", "/d/a.fil"⟩, ⟨"b.fil", "/d/b.fil"⟩] ∧
    (processLoop (fun F => some ⟨false, F.name⟩) 0
        [⟨"a.fil", "/d/a.fil"⟩, ⟨"b.fil", "/d/b.fil"⟩]
        ⟨[⟨0, [cfgRec]⟩], ["old.fil"], []⟩).1.ledger
      = ["old.fil"] ++ ([⟨"a.fil", "/d/a.fil"⟩, ⟨"b.fil", "/d/b.fil"⟩] :
          List Item).map Item.name :=
  per_item_order (fun F => some ⟨false, F.name⟩) 0 (fun F => ⟨false, F.name⟩)
    [⟨"a.fil", "/d/a.fil"⟩, ⟨"b.fil", "/d/b.fil"⟩]
    ⟨[⟨0, [cfgRec]⟩], ["old.fil"], []⟩ (by decide)

/-- Claim C6 as amended (crash/failure atomicity): if the external step
fails on item `bad` of the owned slice, the loop does not catch it — it
reports failure (the exception propagates, aborting `bad` and everything
after it); the rank's own log ends up holding exactly the old records
followed by the records of the items completed before the failure, in
order; no other rank's log changes; the ledger gains exactly the completed
names; and — the amendment — *provided the rank's log already existed
nonempty* (its header in place) at the start of the loop, every completed
item's recorded name lands in the completed set of a subsequent
reconciliation under any peer count `M`.  Without that proviso the
honored-by-a-subsequent-run clause fails: see the counterexample, where a
freshly created rank log puts the pre-failure record at position 0, which
reconciliation always skips. -/
theorem crash_safety (step : Item → Option Rec) (RANK : ℕ) (ρ : Item → Rec)
    (done rest : List Item) (bad : Item) (s : WorkerState)
    (hdone : ∀ F ∈ done, step F = some (ρ F)) (hbad : step bad = none) :
    (processLoop step RANK (done ++ bad :: rest) s).2 = false ∧
    recsOf (processLoop step RANK (done ++ bad :: rest) s).1.dir RANK
      = recsOf s.dir RANK ++ done.map ρ ∧
    (∀ rk, rk ≠ RANK →
      recsOf (processLoop step RANK (done ++ bad :: rest) s).1.dir rk
        = recsOf s.dir rk) ∧
    (processLoop step RANK (done ++ bad :: rest) s).1.ledger
      = s.ledger ++ done.map Item.name ∧
    (recsOf s.dir RANK ≠ [] → ∀ M : ℕ, ∀ F ∈ done,
      (ρ F).fname ∈
        (reconcile (processLoop step RANK (done ++ bad :: rest) s).1.dir M).2) := by
  rw [processLoop_fail step RANK ρ done bad rest s hdone hbad]
  refine ⟨rfl, ?_, ?_, rfl, ?_⟩
  · exact recsOf_foldl_self RANK ρ done s.dir
  · intro rk hrk
    exact recsOf_foldl_ne RANK rk ρ hrk done s.dir
  · intro hne M F hF
    show (ρ F).fname ∈
      (reconcile (done.foldl (fun d F => appendOwn d RANK (ρ F)) s.dir) M).2
    have hrecs : recsOf (done.foldl (fun d F => appendOwn d RANK (ρ F)) s.dir) RANK
        = recsOf s.dir RANK ++ done.map ρ := recsOf_foldl_self RANK ρ done s.dir
    have hne' : recsOf (done.foldl (fun d F => appendOwn d RANK (ρ F)) s.dir) RANK ≠ [] := by
      rw [hrecs]
      intro h0
      exact hne (List.append_eq_nil.mp h0).1
    obtain ⟨f, hf, h1, h2⟩ := recsOf_mem RANK _ hne'
    rcases hcs : recsOf s.dir RANK with _ | ⟨c, cs⟩
    · exact absurd hcs hne
    · have hfr : f.recs = c :: (cs ++ done.map ρ) := by
        rw [h2, hrecs, hcs]
        rfl
      refine mem_reconcile_completed _ M f (ρ F) hf ?_
      rw [hfr]
      show ρ F ∈ cs ++ done.map ρ
      exact List.mem_append.mpr (Or.inr (List.mem_map.mpr ⟨F, hF, rfl⟩))

/-- Witness for C6: with items a, b, c owned and the step failing on b, item
a's record is honored by a subsequent reconciliation under peer count 2. -/
theorem crash_safety_witness :
    ((fun F => (⟨false, F.name⟩ : Rec)) (⟨"a.fil", "/d/a.fil"⟩ : Item)).fname ∈
      (reconcile (processLoop
          (fun F => if F.name = "b.fil" then none else some ⟨false, F.name⟩) 0
          (([⟨"a.fil", "/d/a.fil"⟩] : List Item) ++
            (⟨"b.fil", "/d/b.fil"⟩ : Item) :: ([⟨"c.fil", "/d/c.fil"⟩] : List Item))
          ⟨[⟨0, [cfgRec]⟩], [], []⟩).1.dir 2).2 :=
  (crash_safety (fun F => if F.name = "b.fil" then none else some ⟨false, F.name⟩)
      0 (fun F => ⟨false, F.name⟩)
      [⟨"a.fil", "/d/a.fil"⟩] [⟨"c.fil", "/d/c.fil"⟩] ⟨"b.fil", "/d/b.fil"⟩
      ⟨[⟨0, [cfgRec]⟩], [], []⟩ (by decide) (by decide)).2.2.2.2
    (by decide) 2 ⟨"a.fil", "/d/a.fil"⟩ (by decide)

/-- Counterexample to claim C6 as stated: run 1 under peer count 1 left only
the rank-0 log, so on resume under peer count 2 the glob is nonempty and no
bootstrap initializes rank 1's missing log; rank 1's loop then processes
item c successfully — its first `open(..., "ab")` creates the rank-1 log
with c's metadata record at position 0 — and fails on item d.  The
pre-failure completion record remains in the log, but the claim's "honored
by a subsequent run" clause fails: reconciliation (under any peer count,
here 2) always consumes each log's first record, so c is *not* in the
completed set of the subsequent run and gets reprocessed. -/
theorem crash_safety_cex :
    (processLoop (fun F => if F.name = "d.fil" then none else some ⟨false, F.name⟩) 1
        (([⟨"c.fil", "/d/c.fil"⟩] : List Item) ++ (⟨"d.fil", "/d/d.fil"⟩ : Item) :: [])
        ⟨[⟨0, [cfgRec, ⟨false, "a.fil"⟩]⟩], [], []⟩).2 = false ∧
    recsOf (processLoop
        (fun F => if F.name = "d.fil" then none else some ⟨false, F.name⟩) 1
        (([⟨"c.fil", "/d/c.fil"⟩] : List Item) ++ (⟨"d.fil", "/d/d.fil"⟩ : Item) :: [])
        ⟨[⟨0, [cfgRec, ⟨false, "a.fil"⟩]⟩], [], []⟩).1.dir 1
      = [⟨false, "c.fil"⟩] ∧
    "c.fil" ∉ (reconcile (processLoop
        (fun F => if F.name = "d.fil" then none else some ⟨false, F.name⟩) 1
        (([⟨"c.fil", "/d/c.fil"⟩] : List Item) ++ (⟨"d.fil", "/d/d.fil"⟩ : Item) :: [])
        ⟨[⟨0, [cfgRec, ⟨false, "a.fil"⟩]⟩], [], []⟩).1.dir 2).2 := by
  refine ⟨rfl, rfl, by decide⟩

theorem head?_append_left (l l' : List α) (a : α) (h : l.head? = some a) :
    (l ++ l').head? = some a := by
  cases l with
  | nil => exact absurd h (by simp)
  | cons c cs => exact h

theorem reconcile_nil_fst (N : ℕ) :
    (reconcile ([] : LogDir) N).1
      = (List.range N).map (fun rnk => ⟨rnk, [cfgRec]⟩) := by
  simp [reconcile, reconcileFls]

theorem appendOwn_exists (RANK : ℕ) (rc : Rec) :
    ∀ d : LogDir, ∃ f ∈ appendOwn d RANK rc, f.rnk = RANK := by
  intro d
  induction d with
  | nil => exact ⟨⟨RANK, [rc]⟩, List.mem_cons_self _ _, rfl⟩
  | cons g gs ih =>
    simp only [appendOwn]
    by_cases hg : g.rnk = RANK
    · rw [if_pos hg]
      exact ⟨⟨g.rnk, g.recs ++ [rc]⟩, List.mem_cons_self _ _, hg⟩
    · rw [if_neg hg]
      obtain ⟨f, hf, h⟩ := ih
      exact ⟨f, List.mem_cons_of_mem g hf, h⟩

theorem appendOwn_head_cfg (RANK : ℕ) (rc : Rec) :
    ∀ d : LogDir, (∀ f ∈ d, f.recs.head? = some cfgRec) →
      (∃ f ∈ d, f.rnk = RANK) →
      ∀ f' ∈ appendOwn d RANK rc, f'.recs.head? = some cfgRec := by
  intro d
  induction d with
  | nil =>
    rintro _ ⟨f, hf, _⟩ _ _
    exact absurd hf (List.not_mem_nil f)
  | cons g gs ih =>
    rintro hall hex f' hf'
    simp only [appendOwn] at hf'
    by_cases hg : g.rnk = RANK
    · rw [if_pos hg] at hf'
      rcases List.mem_cons.mp hf' with rfl | h
      · exact head?_append_left g.recs [rc] cfgRec (hall g (List.mem_cons_self g gs))
      · exact hall f' (List.mem_cons_of_mem g h)
    · rw [if_neg hg] at hf'
      rcases List.mem_cons.mp hf' with rfl | h
      · exact hall f' (List.mem_cons_self _ _)
      · refine ih (fun f hf => hall f (List.mem_cons_of_mem g hf)) ?_ f' h
        obtain ⟨f, hf, hrnk⟩ := hex
        rcases List.mem_cons.mp hf with rfl | hfgs
        · exact absurd hrnk hg
        · exact ⟨f, hfgs, hrnk⟩

theorem processLoop_head_cfg (step : Item → Option Rec) (RANK : ℕ) :
    ∀ (FS : List Item) (s : WorkerState),
      (∀ f ∈ s.dir, f.recs.head? = some cfgRec) →
      (∃ f ∈ s.dir, f.rnk = RANK) →
      ∀ f' ∈ (processLoop step RANK FS s).1.dir, f'.recs.head? = some cfgRec := by
  intro FS
  induction FS with
  | nil => intro s hall _ f' hf'; exact hall f' hf'
  | cons F FS ih =>
    intro s hall hex f' hf'
    rcases hstep : step F with _ | m
    · simp only [processLoop, hstep] at hf'
      exact hall f' hf'
    · simp only [processLoop, hstep] at hf'
      exact ih
        { dir := appendOwn s.dir RANK m,
          ledger := s.ledger ++ [F.name],
          trace := s.trace ++ [Event.invoke F.name, Event.record m,
                               Event.ledgerAppend F.name,
                               Event.emitCount (s.ledger.length + 1)] }
        (appendOwn_head_cfg RANK m s.dir hall hex)
        (appendOwn_exists RANK m s.dir) f' hf'

/-- Counterexample to claim C10 as stated: resuming a date whose only
existing log was written by a run with peer count 1, a new peer of rank 1
out of 2 finds a nonempty glob (so no bootstrap initialization happens for
its own missing log, lines 174-175 fall through) and its first
`open(..., "ab")` creates the rank-1 log with a *metadata* record at
position 0 — not the pickled configuration — so the first CompletionRecord
it appends lands at position 0, and a later reconciliation (which always
skips position 0) does not recognize that item as completed. -/
theorem log_header_cex :
    recsOf (runCall (fun F => some ⟨false, F.name⟩) 1 2
        [⟨"a.fil", "/d/a.fil"⟩, ⟨"b.fil", "/d/b.fil"⟩, ⟨"c.fil", "/d/c.fil"⟩]
        [⟨0, [cfgRec, ⟨false, "a.fil"⟩]⟩] []).1.dir 1
      = [⟨false, "c.fil"⟩] ∧
    "c.fil" ∉ (reconcile (runCall (fun F => some ⟨false, F.name⟩) 1 2
        [⟨"a.fil", "/d/a.fil"⟩, ⟨"b.fil", "/d/b.fil"⟩, ⟨"c.fil", "/d/c.fil"⟩]
        [⟨0, [cfgRec, ⟨false, "a.fil"⟩]⟩] []).1.dir 2).2 := by
  constructor
  · rfl
  · decide

/-- Claim C10 as amended: reconciliation always skips the first record of
every log it reads, so an item name counts as completed only if it appears
in a record at position 1 or later of some log; and on a *bootstrap* run
(no logs exist yet) every log — including the running peer's own — starts
with the pickled configuration, so the peer's first CompletionRecord lands
at position 1.  (Without the bootstrap, a freshly created rank log starts
with a CompletionRecord at position 0 instead; see the counterexample.) -/
theorem log_header_amended (step : Item → Option Rec) (RANK NRANKS : ℕ)
    (dirFiles : List Item) (ledger : List String) (hRN : RANK < NRANKS) :
    (∀ f ∈ (runCall step RANK NRANKS dirFiles ([] : LogDir) ledger).1.dir,
        f.recs.head? = some cfgRec) ∧
    (∀ (dir : LogDir) (N : ℕ) (nm : String),
        (∀ f ∈ dir, ∀ r ∈ f.recs.drop 1, r.fname ≠ nm) →
        nm ∉ (reconcile dir N).2) := by
  constructor
  · intro f hf
    rcases hfe : raw_or_fil dirFiles with _ | EXT
    · rw [runCall_none step RANK NRANKS dirFiles [] ledger hfe] at hf
      exact absurd hf (List.not_mem_nil f)
    · rw [runCall_some step RANK NRANKS dirFiles [] ledger EXT hfe] at hf
      refine processLoop_head_cfg step RANK _ _ ?_ ?_ f hf
      · intro g hg
        have hg' : g ∈ (List.range NRANKS).map
            (fun rnk => (⟨rnk, [cfgRec]⟩ : LogFile)) := by
          rw [← reconcile_nil_fst NRANKS]
          exact hg
        obtain ⟨rnk, _, hfeq⟩ := List.mem_map.mp hg'
        rw [← hfeq]
        rfl
      · show ∃ g ∈ (reconcile ([] : LogDir) NRANKS).1, g.rnk = RANK
        rw [reconcile_nil_fst NRANKS]
        exact ⟨⟨RANK, [cfgRec]⟩,
          List.mem_map.mpr ⟨RANK, List.mem_range.mpr hRN, rfl⟩, rfl⟩
  · intro dir N nm h hmem
    have hmem' : nm ∈ (reconcileFls dir N).flatMap
        (fun f => (f.recs.drop 1).map Rec.fname) := hmem
    obtain ⟨f, hf, hx⟩ := List.mem_flatMap.mp hmem'
    obtain ⟨r, hr, hrn⟩ := List.mem_map.mp hx
    rcases dir with _ | ⟨g, gs⟩
    · have hsyn : f ∈ (List.range N).map (fun rnk => (⟨rnk, []⟩ : LogFile)) := hf
      obtain ⟨rnk, _, hfeq⟩ := List.mem_map.mp hsyn
      rw [← hfeq] at hr
      simp at hr
    · exact h f hf r hr hrn

/-- Witness for the amended C10: a name recorded nowhere past position 0 is
not reconciled as completed. -/
theorem log_header_amended_witness :
    "z.fil" ∉ (reconcile [(⟨3, [cfgRec]⟩ : LogFile)] 5).2 :=
  (log_header_amended (fun F => some ⟨false, F.name⟩) 0 1
      [⟨"a.fil", "/d/a.fil"⟩] [] (by decide)).2
    [(⟨3, [cfgRec]⟩ : LogFile)] 5 "z.fil" (by decide)

end FFAPipe
